import Mathlib

/-!
Shallow embedding of the chess engine in src/services/chessEngine.ts.

The board is an 8x8 grid of optional pieces.  Positions carry `Int`
coordinates because callers may pass arbitrary numbers; reading a cell
whose row index is outside [0,8) throws in the source (indexing
`undefined`), while an out-of-range column index on an existing row
reads `undefined`, which behaves like an empty cell.  `getCell` models
the in-range/empty-column behaviour; `isValidMoveE` adds the exception
behaviour for out-of-range rows.
-/

inductive Color where
  | white
  | black
deriving DecidableEq, Repr

inductive PieceType where
  | k | q | r | b | n | p
deriving DecidableEq, Repr

structure Piece where
  type : PieceType
  color : Color
  hasMoved : Bool
deriving DecidableEq, Repr

structure Position where
  r : Int
  c : Int
deriving DecidableEq, Repr

/-- Move record; the source field `from` is a Lean keyword, rendered `frm`. -/
structure Move where
  frm : Position
  dst : Position
deriving DecidableEq, Repr

def opponent : Color → Color
  | .white => .black
  | .black => .white

def Board := Fin 8 → Fin 8 → Option Piece

instance : DecidableEq Board := fun a b => by
  unfold Board; infer_instance

/-- Read a cell at `Int` coordinates.  Out-of-range reads yield `none`
(the source reads `undefined` for out-of-range columns; out-of-range rows
throw, which `isValidMoveE` accounts for separately). -/
def getCell (b : Board) (r c : Int) : Option Piece :=
  if h : 0 ≤ r ∧ r < 8 ∧ 0 ≤ c ∧ c < 8 then
    b ⟨r.toNat, by omega⟩ ⟨c.toNat, by omega⟩
  else none

/-- Write a cell at `Int` coordinates; out-of-range writes are dropped
(the source's writes past an array's end are invisible in all the
engine's bounds-checked reads). -/
def setCell (b : Board) (r c : Int) (v : Option Piece) : Board :=
  fun i j => if (i.val : Int) = r ∧ (j.val : Int) = c then v else b i j

/-- All 64 on-board squares in row-major order, as the source's nested
`for` loops enumerate them. -/
def allSquares : List Position :=
  (List.range 8).flatMap fun r => (List.range 8).map fun c => ⟨(r : Int), (c : Int)⟩

/-- `isPathClear`: intermediate squares strictly between `frm` and `dst`.
The source walks by the sign steps until reaching `dst`; on the straight or
diagonal lines it is called on, that is `max |dr| |dc| - 1` steps. -/
def pathClearAux (board : Board) (dr dc : Int) : Nat → Int → Int → Bool
  | 0, _, _ => true
  | k + 1, r, c =>
    if (getCell board r c).isSome then false
    else pathClearAux board dr dc k (r + dr) (c + dc)

def isPathClear (board : Board) (frm dst : Position) : Bool :=
  let dr := (dst.r - frm.r).sign
  let dc := (dst.c - frm.c).sign
  let n := max (dst.r - frm.r).natAbs (dst.c - frm.c).natAbs
  pathClearAux board dr dc (n - 1) (frm.r + dr) (frm.c + dc)

def knightOffsets : List (Int × Int) :=
  [(-2, -1), (-2, 1), (-1, -2), (-1, 2), (1, -2), (1, 2), (2, -1), (2, 1)]

def kingOffsets : List (Int × Int) :=
  [(-1, -1), (-1, 0), (-1, 1), (0, -1), (0, 1), (1, -1), (1, 0), (1, 1)]

def pieceAt (board : Board) (r c : Int) (col : Color) (t : PieceType) : Bool :=
  match getCell board r c with
  | some q => decide (q.color = col ∧ q.type = t)
  | none => false

/-- One sliding ray: walk from (r, c) in direction (dr, dc) while on the
board; the first occupied square decides (attacker of an allowed type or
a blocker).  Fuel 8 bounds the at most 8 on-board steps of the source's
while loop. -/
def ray (board : Board) (ac : Color) (ts : List PieceType) (dr dc : Int) :
    Nat → Int → Int → Bool
  | 0, _, _ => false
  | k + 1, r, c =>
    if 0 ≤ r ∧ r < 8 ∧ 0 ≤ c ∧ c < 8 then
      match getCell board r c with
      | some q => decide (q.color = ac ∧ q.type ∈ ts)
      | none => ray board ac ts dr dc k (r + dr) (c + dc)
    else false

def slideDirs : List (Int × Int × List PieceType) :=
  [(-1, 0, [.r, .q]), (1, 0, [.r, .q]), (0, -1, [.r, .q]), (0, 1, [.r, .q]),
   (-1, -1, [.b, .q]), (-1, 1, [.b, .q]), (1, -1, [.b, .q]), (1, 1, [.b, .q])]

def isSquareUnderAttack (board : Board) (pos : Position) (attackerColor : Color) : Bool :=
  let pawnRow := pos.r + (if attackerColor = .white then 1 else -1)
  let pawnHit :=
    if 0 ≤ pawnRow ∧ pawnRow < 8 then
      (if 0 ≤ pos.c - 1 then pieceAt board pawnRow (pos.c - 1) attackerColor .p else false) ||
      (if pos.c + 1 < 8 then pieceAt board pawnRow (pos.c + 1) attackerColor .p else false)
    else false
  let knightHit := knightOffsets.any fun o =>
    let mr := pos.r + o.1
    let mc := pos.c + o.2
    if 0 ≤ mr ∧ mr < 8 ∧ 0 ≤ mc ∧ mc < 8 then pieceAt board mr mc attackerColor .n else false
  let kingHit := kingOffsets.any fun o =>
    let mr := pos.r + o.1
    let mc := pos.c + o.2
    if 0 ≤ mr ∧ mr < 8 ∧ 0 ≤ mc ∧ mc < 8 then pieceAt board mr mc attackerColor .k else false
  let slideHit := slideDirs.any fun d =>
    ray board attackerColor d.2.2 d.1 d.2.1 8 (pos.r + d.1) (pos.c + d.2.1)
  pawnHit || knightHit || kingHit || slideHit

/-- Inner-row scan: the source's inner loop breaks at the first king in a
row, so it finds the smallest matching column. -/
def kingRowScan (board : Board) (color : Color) (r : Nat) : Option Nat :=
  (List.range 8).find? fun c =>
    match getCell board (r : Int) (c : Int) with
    | some q => decide (q.type = .k ∧ q.color = color)
    | none => false

/-- King search: the source's `break` only leaves the inner column loop,
so a later row's king overwrites an earlier one. -/
def findKing (board : Board) (color : Color) : Option Position :=
  (List.range 8).foldl
    (fun acc r =>
      match kingRowScan board color r with
      | some c => some ⟨(r : Int), (c : Int)⟩
      | none => acc)
    none

def isInCheck (board : Board) (color : Color) : Bool :=
  match findKing board color with
  | none => true
  | some kp => isSquareUnderAttack board kp (opponent color)

/-- `applyMove`.  The source clones the board, copies the moving piece,
marks it moved, relocates the castling rook for a two-column king move,
writes destination then clears origin, and finally retypes a pawn that
reached the last rank (default queen).  The promotion mutates the placed
object, so the visible result is the promoted piece at the destination
(or nothing when origin equals destination, since the origin is cleared
last).  An empty origin produces a malformed `{hasMoved: true}` object in
the source; no engine path reaches that case and it is not representable
as a `Piece`, so this embedding returns the board unchanged there (the
heap model below covers that case exactly). -/
def applyMove (board : Board) (mv : Move) (promoteTo : Option PieceType) : Board :=
  match getCell board mv.frm.r mv.frm.c with
  | none => board
  | some pc =>
    let p1 : Piece := { pc with hasMoved := true }
    let b1 :=
      if p1.type = .k ∧ (mv.dst.c - mv.frm.c).natAbs = 2 then
        let row := mv.frm.r
        let ks := mv.frm.c < mv.dst.c
        let rookFromCol : Int := if ks then 7 else 0
        let rookToCol : Int := if ks then 5 else 3
        match getCell board row rookFromCol with
        | some rk =>
          setCell (setCell board row rookToCol (some { rk with hasMoved := true }))
            row rookFromCol none
        | none =>
          -- Source spreads `null` into a malformed object here; unreachable
          -- from validated flows.  Approximated by clearing both squares.
          setCell (setCell board row rookToCol none) row rookFromCol none
      else board
    let pF : Piece :=
      if p1.type = .p ∧ (mv.dst.r = 0 ∨ mv.dst.r = 7) then
        { p1 with type := promoteTo.getD .q }
      else p1
    setCell (setCell b1 mv.dst.r mv.dst.c (some pF)) mv.frm.r mv.frm.c none

/-- King case of the validator's switch: an adjacent step, or the
two-square castling move with its eligibility and (under `checkSafety`)
attack conditions. -/
def kingValid (board : Board) (frm dst : Position) (turn : Color) (checkSafety : Bool)
    (p : Piece) : Bool :=
  let dx := (dst.c - frm.c).natAbs
  let dy := (dst.r - frm.r).natAbs
  if dx ≤ 1 ∧ dy ≤ 1 then true
  else if dy = 0 ∧ dx = 2 ∧ p.hasMoved = false then
    if checkSafety && isInCheck board turn then false
    else
      let ks := frm.c < dst.c
      let rookCol : Int := if ks then 7 else 0
      match getCell board frm.r rookCol with
      | some rook =>
        if rook.type = .r ∧ rook.color = turn ∧ rook.hasMoved = false then
          if isPathClear board frm ⟨frm.r, rookCol⟩ then
            let midCol := frm.c + (if ks then 1 else -1)
            if checkSafety && isSquareUnderAttack board ⟨frm.r, midCol⟩ (opponent turn)
            then false
            else true
          else false
        else false
      | none => false
  else false

/-- Per-type geometry of the validator's switch statement. -/
def pieceValid (board : Board) (frm dst : Position) (turn : Color) (checkSafety : Bool)
    (p : Piece) : Bool :=
  let dx := (dst.c - frm.c).natAbs
  let dy := (dst.r - frm.r).natAbs
  let target := getCell board dst.r dst.c
  match p.type with
  | .p =>
    let dir : Int := if p.color = .white then -1 else 1
    let startRow : Int := if p.color = .white then 6 else 1
    decide (frm.c = dst.c ∧ dst.r = frm.r + dir ∧ target = none) ||
    decide (frm.c = dst.c ∧ dst.r = frm.r + 2 * dir ∧ frm.r = startRow ∧
            target = none ∧ getCell board (frm.r + dir) frm.c = none) ||
    decide (dx = 1 ∧ dst.r = frm.r + dir ∧ target ≠ none)
  | .r => decide (dx = 0 ∨ dy = 0) && isPathClear board frm dst
  | .n => decide ((dx = 2 ∧ dy = 1) ∨ (dx = 1 ∧ dy = 2))
  | .b => decide (dx = dy) && isPathClear board frm dst
  | .q => decide (dx = 0 ∨ dy = 0 ∨ dx = dy) && isPathClear board frm dst
  | .k => kingValid board frm dst turn checkSafety p

def isValidMove (board : Board) (frm dst : Position) (turn : Color) (checkSafety : Bool) : Bool :=
  match getCell board frm.r frm.c with
  | none => false
  | some p =>
    if p.color ≠ turn then false
    else if (getCell board dst.r dst.c).any (fun t => t.color = p.color) then false
    else
      let valid := pieceValid board frm dst turn checkSafety p
      if valid && checkSafety then
        !(isInCheck (applyMove board ⟨frm, dst⟩ none) turn)
      else valid

/-- Exception-aware wrapper: the source's first two reads
`board[from.r][from.c]` and `board[dst.r][dst.c]` throw a TypeError when the
row index is outside [0,8); every later read is bounds-checked or stays in
range, so past those two reads the function is total. -/
def isValidMoveE (board : Board) (frm dst : Position) (turn : Color) (checkSafety : Bool) :
    Except Unit Bool :=
  if (0 ≤ frm.r ∧ frm.r < 8) ∧ (0 ≤ dst.r ∧ dst.r < 8) then
    .ok (isValidMove board frm dst turn checkSafety)
  else .error ()

def getAllMoves (board : Board) (color : Color) : List Move :=
  allSquares.flatMap fun frm =>
    if (getCell board frm.r frm.c).any (fun q => q.color = color) then
      (allSquares.filter fun t => isValidMove board frm t color true).map fun t => ⟨frm, t⟩
    else []

def pieceVal : PieceType → Int
  | .p => 10
  | .n => 30
  | .b => 30
  | .r => 50
  | .q => 90
  | .k => 900

def evaluateBoard (board : Board) : Int :=
  allSquares.foldl
    (fun score pos =>
      match getCell board pos.r pos.c with
      | some q => score + (if q.color = .black then 1 else -1) * pieceVal q.type
      | none => score)
    0

/-- Search values: `Int` extended with the source's `-Infinity` (`⊥`) and
`Infinity` (`⊤`) sentinels used for alpha, beta and the running extrema. -/
def EInt := WithBot (WithTop Int)

instance : LinearOrder EInt := by unfold EInt; infer_instance
instance : OrderBot EInt := by unfold EInt; infer_instance
instance : OrderTop EInt := by unfold EInt; infer_instance
instance : DecidableEq EInt := by unfold EInt; infer_instance

def toE (n : Int) : EInt := ((n : WithTop Int) : WithBot (WithTop Int))

/-- Maximizing inner loop of `minimax`: fold with the source's running
`maxEval`/`alpha` and the `beta <= alpha` break. -/
def maxLoop (f : EInt → Move → EInt) (beta : EInt) :
    List Move → EInt → EInt → EInt
  | [], maxEval, _ => maxEval
  | m :: rest, maxEval, alpha =>
    let v := f alpha m
    let maxEval' := max maxEval v
    let alpha' := max alpha v
    if beta ≤ alpha' then maxEval' else maxLoop f beta rest maxEval' alpha'

/-- Minimizing inner loop of `minimax`. -/
def minLoop (f : EInt → Move → EInt) (alpha : EInt) :
    List Move → EInt → EInt → EInt
  | [], minEval, _ => minEval
  | m :: rest, minEval, beta =>
    let v := f beta m
    let minEval' := min minEval v
    let beta' := min beta v
    if beta' ≤ alpha then minEval' else minLoop f alpha rest minEval' beta'

def minimax (depth : Nat) (board : Board) (alpha beta : EInt) (isMaximizing : Bool) : EInt :=
  match depth with
  | 0 => toE (evaluateBoard board)
  | d + 1 =>
    let color := if isMaximizing then Color.black else Color.white
    let moves := getAllMoves board color
    if moves = [] then
      if isInCheck board color then (if isMaximizing then toE (-9999) else toE 9999)
      else toE 0
    else if isMaximizing then
      maxLoop (fun a m => minimax d (applyMove board m none) a beta false) beta moves ⊥ alpha
    else
      minLoop (fun b m => minimax d (applyMove board m none) alpha b true) alpha moves ⊤ beta

/-- Top-level search loop of `getBestMove`: `beta` is the constant
`Infinity`, `bestMove` starts `null`, `maxVal` and `alpha` start
`-Infinity`, and a move is recorded only on a strict improvement. -/
def bestLoop (f : EInt → Move → EInt) :
    List Move → Option Move → EInt → EInt → Option Move
  | [], best, _, _ => best
  | m :: rest, best, maxVal, alpha =>
    let v := f alpha m
    let best' := if maxVal < v then some m else best
    let maxVal' := if maxVal < v then v else maxVal
    let alpha' := max alpha v
    if (⊤ : EInt) ≤ alpha' then best' else bestLoop f rest best' maxVal' alpha'

/-- `getBestMove`.  The source shuffles the generated move list with
`Math.random` before searching; the shuffled order is taken as an extra
argument constrained (in the theorems) to be a permutation of
`getAllMoves board black`. -/
def getBestMove (board : Board) (depth : Nat) (shuffled : List Move) : Option Move :=
  if getAllMoves board .black = [] then none
  else
    bestLoop (fun a m => minimax (depth - 1) (applyMove board m none) a ⊤ false)
      shuffled none ⊥ ⊥

def fileStr (c : Int) : String :=
  if 0 ≤ c ∧ c < 8 then ["a", "b", "c", "d", "e", "f", "g", "h"].getD c.toNat "undefined"
  else "undefined"

def rankStr (r : Int) : String := toString (8 - r)

def typeLetter : PieceType → String
  | .k => "K"
  | .q => "Q"
  | .r => "R"
  | .b => "B"
  | .n => "N"
  | .p => "P"

def getSan (prevBoard nextBoard : Board) (mv : Move) (promoteTo : Option PieceType) : String :=
  match getCell prevBoard mv.frm.r mv.frm.c with
  | none => ""
  | some piece =>
    let fromFile := fileStr mv.frm.c
    let dest := fileStr mv.dst.c ++ rankStr mv.dst.r
    if piece.type = .k ∧ (mv.dst.c - mv.frm.c).natAbs = 2 then
      let base := if mv.frm.c < mv.dst.c then "O-O" else "O-O-O"
      let opp := opponent piece.color
      base ++ (if isInCheck nextBoard opp then
                 (if getAllMoves nextBoard opp = [] then "#" else "+")
               else "")
    else
      let isCapture := (getCell prevBoard mv.dst.r mv.dst.c).isSome
      let base :=
        if piece.type = .p then
          (if isCapture then fromFile ++ "x" ++ dest else dest) ++
          (match promoteTo with
           | some t => "=" ++ typeLetter t
           | none => "")
        else
          let others := allSquares.filter fun q =>
            decide (¬(q.r = mv.frm.r ∧ q.c = mv.frm.c)) &&
            (match getCell prevBoard q.r q.c with
             | some pp => decide (pp.type = piece.type ∧ pp.color = piece.color)
             | none => false) &&
            isValidMove prevBoard q mv.dst piece.color true
          let disamb :=
            if others = [] then ""
            else
              let fileMatch := others.any fun o => o.c = mv.frm.c
              let rankMatch := others.any fun o => o.r = mv.frm.r
              if fileMatch = false then fromFile
              else if rankMatch = false then rankStr mv.frm.r
              else fromFile ++ rankStr mv.frm.r
          typeLetter piece.type ++ disamb ++ (if isCapture then "x" else "") ++ dest
      let opp := opponent piece.color
      base ++ (if isInCheck nextBoard opp then
                 (if getAllMoves nextBoard opp = [] then "#" else "+")
               else "")

def backRank : Fin 8 → PieceType
  | 0 => .r
  | 1 => .n
  | 2 => .b
  | 3 => .q
  | 4 => .k
  | 5 => .b
  | 6 => .n
  | 7 => .r

def getInitialBoard : Board := fun i j =>
  if i.val = 0 then some ⟨backRank j, .black, false⟩
  else if i.val = 1 then some ⟨.p, .black, false⟩
  else if i.val = 6 then some ⟨.p, .white, false⟩
  else if i.val = 7 then some ⟨backRank j, .white, false⟩
  else none

/-!
Heap model of `applyMove`, for the referential-purity claim.

`cloneBoard` copies the row arrays but shares the piece objects, so the
no-mutation contract rests on `applyMove` spreading (`{...piece}`) every
object it writes to.  The model makes that explicit: a store of piece
objects, boards holding references, and `applyMoveH` allocating fresh
entries for the moved piece and the castling rook.  Fields are optional
because spreading `null`/`undefined` yields an object with no fields at
all (the `{hasMoved: true}` object written when the origin is empty).
-/

structure JsPiece where
  jtype : Option PieceType
  jcolor : Option Color
  jhasMoved : Bool
deriving DecidableEq, Repr

def emptyJs : JsPiece := ⟨none, none, false⟩

abbrev Store := List JsPiece

def BoardR := Fin 8 → Fin 8 → Option Nat

/-- Reference read at `Int` coordinates (in-range only, like `getCell`). -/
def refAt (b : BoardR) (r c : Int) : Option Nat :=
  if h : 0 ≤ r ∧ r < 8 ∧ 0 ≤ c ∧ c < 8 then
    b ⟨r.toNat, by omega⟩ ⟨c.toNat, by omega⟩
  else none

def setRef (b : BoardR) (r c : Int) (v : Option Nat) : BoardR :=
  fun i j => if (i.val : Int) = r ∧ (j.val : Int) = c then v else b i j

/-- The board as the piece values its references denote. -/
def derefB (σ : Store) (b : BoardR) : Fin 8 → Fin 8 → Option JsPiece :=
  fun i j => (b i j).bind fun n => List.get? σ n

/-- All references on the board point into the store. -/
def StoreWF (σ : Store) (b : BoardR) : Prop :=
  ∀ i j n, b i j = some n → n < List.length σ

/-- `applyMove` at the heap level.  Steps mirror the source: spread the
origin cell into a fresh object `p` (an empty origin spreads to `{}`),
set `hasMoved`, for a two-column king move spread and relocate the rook,
write `p`'s reference to the destination row (throwing when that row does
not exist), clear the origin, and finally mutate `p`'s type on promotion
— the placed object, hence the final store entry, carries the new type. -/
def applyMoveH (σ : Store) (b : BoardR) (mv : Move) (promoteTo : Option PieceType) :
    Except Unit (Store × BoardR) :=
  if ¬(0 ≤ mv.frm.r ∧ mv.frm.r < 8) then .error () else
  let pIdx := List.length σ
  let p0 : JsPiece := ((refAt b mv.frm.r mv.frm.c).bind fun n => List.get? σ n).getD emptyJs
  let p1 : JsPiece := { p0 with jhasMoved := true }
  let pF : JsPiece :=
    if p0.jtype = some .p ∧ (mv.dst.r = 0 ∨ mv.dst.r = 7) then
      { p1 with jtype := some (promoteTo.getD .q) }
    else p1
  if p0.jtype = some .k ∧ (mv.dst.c - mv.frm.c).natAbs = 2 then
    let ks := mv.frm.c < mv.dst.c
    let rookFromCol : Int := if ks then 7 else 0
    let rookToCol : Int := if ks then 5 else 3
    let r0 : JsPiece := ((refAt b mv.frm.r rookFromCol).bind fun n => List.get? σ n).getD emptyJs
    let r1 : JsPiece := { r0 with jhasMoved := true }
    let b1 := setRef (setRef b mv.frm.r rookToCol (some (pIdx + 1))) mv.frm.r rookFromCol none
    if ¬(0 ≤ mv.dst.r ∧ mv.dst.r < 8) then .error () else
    let b2 := setRef (setRef b1 mv.dst.r mv.dst.c (some pIdx)) mv.frm.r mv.frm.c none
    .ok (σ ++ [pF, r1], b2)
  else
    if ¬(0 ≤ mv.dst.r ∧ mv.dst.r < 8) then .error () else
    let b2 := setRef (setRef b mv.dst.r mv.dst.c (some pIdx)) mv.frm.r mv.frm.c none
    .ok (σ ++ [pF], b2)

/-- Value board: the heap board with references resolved. -/
def VBoard := Fin 8 → Fin 8 → Option JsPiece

def vGet (v : VBoard) (r c : Int) : Option JsPiece :=
  if h : 0 ≤ r ∧ r < 8 ∧ 0 ≤ c ∧ c < 8 then
    v ⟨r.toNat, by omega⟩ ⟨c.toNat, by omega⟩
  else none

def vSet (v : VBoard) (r c : Int) (x : Option JsPiece) : VBoard :=
  fun i j => if (i.val : Int) = r ∧ (j.val : Int) = c then x else v i j

/-- Pure counterpart of `applyMoveH` over value boards. -/
def applyMoveJs (v : VBoard) (mv : Move) (promoteTo : Option PieceType) :
    Except Unit VBoard :=
  if ¬(0 ≤ mv.frm.r ∧ mv.frm.r < 8) then .error () else
  let p0 : JsPiece := (vGet v mv.frm.r mv.frm.c).getD emptyJs
  let p1 : JsPiece := { p0 with jhasMoved := true }
  let pF : JsPiece :=
    if p0.jtype = some .p ∧ (mv.dst.r = 0 ∨ mv.dst.r = 7) then
      { p1 with jtype := some (promoteTo.getD .q) }
    else p1
  if p0.jtype = some .k ∧ (mv.dst.c - mv.frm.c).natAbs = 2 then
    let ks := mv.frm.c < mv.dst.c
    let rookFromCol : Int := if ks then 7 else 0
    let rookToCol : Int := if ks then 5 else 3
    let r1 : JsPiece := { (vGet v mv.frm.r rookFromCol).getD emptyJs with jhasMoved := true }
    let v1 := vSet (vSet v mv.frm.r rookToCol (some r1)) mv.frm.r rookFromCol none
    if ¬(0 ≤ mv.dst.r ∧ mv.dst.r < 8) then .error () else
    .ok (vSet (vSet v1 mv.dst.r mv.dst.c (some pF)) mv.frm.r mv.frm.c none)
  else
    if ¬(0 ≤ mv.dst.r ∧ mv.dst.r < 8) then .error () else
    .ok (vSet (vSet v mv.dst.r mv.dst.c (some pF)) mv.frm.r mv.frm.c none)

def cbKings : Board := fun i j =>
  if i = 0 ∧ j = 0 then some ⟨.k, .black, false⟩
  else if i = 7 ∧ j = 7 then some ⟨.k, .white, false⟩
  else none

def emptyB : Board := fun _ _ => none

/-- White rook on a1, white king on a8, otherwise empty. -/
def cbRook : Board := fun i j =>
  if i = 7 ∧ j = 0 then some ⟨.r, .white, false⟩
  else if i = 0 ∧ j = 0 then some ⟨.k, .white, false⟩
  else none

instance : DecidableEq (Except Unit Bool) := fun a b =>
  match a, b with
  | .error x, .error y => isTrue (by cases x; cases y; rfl)
  | .ok x, .ok y =>
    if h : x = y then isTrue (by rw [h]) else isFalse (by intro he; cases he; exact h rfl)
  | .error _, .ok _ => isFalse (by intro h; cases h)
  | .ok _, .error _ => isFalse (by intro h; cases h)

/-- White pawn on a7 about to promote; kings far from the action. -/
def cbPromo : Board := fun i j =>
  if i = 1 ∧ j = 0 then some ⟨.p, .white, true⟩
  else if i = 7 ∧ j = 7 then some ⟨.k, .white, false⟩
  else if i = 5 ∧ j = 7 then some ⟨.k, .black, false⟩
  else none

def promoMv : Move := ⟨⟨1, 0⟩, ⟨0, 0⟩⟩

/-- White untouched king and rooks on the back rank with black king far
away: the standard castling position of the spec scenario. -/
def cbCastle : Board := fun i j =>
  if i = 7 ∧ j = 4 then some ⟨.k, .white, false⟩
  else if i = 7 ∧ j = 7 then some ⟨.r, .white, false⟩
  else if i = 7 ∧ j = 0 then some ⟨.r, .white, false⟩
  else if i = 0 ∧ j = 4 then some ⟨.k, .black, false⟩
  else none

def storeW : Store := [⟨some .p, some .white, false⟩]

def boardRW : BoardR := fun i j => if i = 6 ∧ j = 4 then some 0 else none

def storeW2 : Store := [⟨none, none, false⟩, ⟨some .p, some .white, false⟩]

def boardRW2 : BoardR := fun i j => if i = 6 ∧ j = 4 then some 1 else none

/-- A cell holding `color`'s king. -/
def isKingCell (board : Board) (color : Color) (i j : Fin 8) : Bool :=
  match board i j with
  | some q => decide (q.type = .k ∧ q.color = color)
  | none => false

/-- The row-accumulating step of `findKing`. -/
def kingStep (scan : Nat → Option Nat) (acc : Option Position) (r : Nat) : Option Position :=
  match scan r with
  | some c => some ⟨(r : Int), (c : Int)⟩
  | none => acc

/-! ### Basic cell lemmas -/

lemma getCell_fin (b : Board) (i j : Fin 8) :
    getCell b (i.val : Int) (j.val : Int) = b i j := by
  have hi := i.isLt
  have hj := j.isLt
  simp only [getCell]
  rw [dif_pos (by omega)]
  congr 1

lemma getCell_out (b : Board) (r c : Int) (h : ¬(0 ≤ r ∧ r < 8 ∧ 0 ≤ c ∧ c < 8)) :
    getCell b r c = none := by
  simp only [getCell]
  rw [dif_neg h]

lemma getCell_setCell (b : Board) (r' c' r c : Int) (v : Option Piece)
    (hr : 0 ≤ r) (hr8 : r < 8) (hc : 0 ≤ c) (hc8 : c < 8) :
    getCell (setCell b r' c' v) r c = if r = r' ∧ c = c' then v else getCell b r c := by
  have hrn : (r.toNat : Int) = r := Int.toNat_of_nonneg hr
  have hcn : (c.toNat : Int) = c := Int.toNat_of_nonneg hc
  simp only [getCell, setCell]
  rw [dif_pos (by omega), dif_pos (by omega)]
  by_cases h : r = r' ∧ c = c'
  · rw [if_pos h, if_pos (by constructor <;> omega)]
  · rw [if_neg h, if_neg (by rw [hrn, hcn]; exact h)]

/-! ### King-safety gate of `isValidMove` -/

lemma gate_aux (valid chk : Bool)
    (h : (if (valid && true) = true then !chk else valid) = true) : chk = false := by
  cases valid <;> cases chk <;> simp_all

/-- A move accepted with `checkSafety = true` never leaves the mover's own
king in check: the final gate of `isValidMove` simulates the move with
`applyMove` and rejects otherwise. -/
lemma isValidMove_safety (board : Board) (frm dst : Position) (turn : Color)
    (h : isValidMove board frm dst turn true = true) :
    isInCheck (applyMove board ⟨frm, dst⟩ none) turn = false := by
  unfold isValidMove at h
  cases hp : getCell board frm.r frm.c with
  | none => rw [hp] at h; exact absurd h (by simp)
  | some p =>
    rw [hp] at h
    simp only [] at h
    by_cases h1 : p.color ≠ turn
    · rw [if_pos h1] at h; exact absurd h (by simp)
    · rw [if_neg h1] at h
      by_cases h2 : (getCell board dst.r dst.c).any (fun t => t.color = p.color) = true
      · rw [if_pos h2] at h; exact absurd h (by simp)
      · rw [if_neg h2] at h
        exact gate_aux _ _ h

/-! ### Membership in `getAllMoves` -/

lemma of_mem_getAllMoves {board : Board} {color : Color} {m : Move}
    (hm : m ∈ getAllMoves board color) :
    isValidMove board m.frm m.dst color true = true ∧
    ∃ p, getCell board m.frm.r m.frm.c = some p ∧ p.color = color := by
  unfold getAllMoves at hm
  simp only [List.mem_flatMap] at hm
  obtain ⟨frm, hfrm, hm⟩ := hm
  by_cases hc : (getCell board frm.r frm.c).any (fun q => q.color = color) = true
  · rw [if_pos hc] at hm
    simp only [List.mem_map, List.mem_filter] at hm
    obtain ⟨t, ⟨ht, hv⟩, rfl⟩ := hm
    refine ⟨hv, ?_⟩
    cases hq : getCell board frm.r frm.c with
    | none => rw [hq] at hc; simp [Option.any] at hc
    | some q =>
      rw [hq] at hc
      simp only [Option.any] at hc
      exact ⟨q, rfl, by simpa using hc⟩
  · rw [if_neg hc] at hm
    simp at hm

/-- C3: every move generated by `getAllMoves`, applied with `applyMove`,
yields a board on which the mover's color is not in check. -/
theorem claim_c3_king_safety (board : Board) (color : Color) (m : Move)
    (hm : m ∈ getAllMoves board color) :
    isInCheck (applyMove board m none) color = false := by
  obtain ⟨hv, -⟩ := of_mem_getAllMoves hm
  exact isValidMove_safety board m.frm m.dst color hv

/-- C3 witness: a concrete generated move and its safe outcome. -/
theorem claim_c3_witness :
    (⟨⟨0, 0⟩, ⟨0, 1⟩⟩ : Move) ∈ getAllMoves cbKings .black ∧
    isInCheck (applyMove cbKings ⟨⟨0, 0⟩, ⟨0, 1⟩⟩ none) .black = false :=
  ⟨by decide, claim_c3_king_safety cbKings .black ⟨⟨0, 0⟩, ⟨0, 1⟩⟩ (by decide)⟩

/-! ### King location -/

lemma find?_unique {α : Type} (p : α → Bool) (a : α) :
    ∀ l : List α, a ∈ l → p a = true → (∀ x ∈ l, x ≠ a → p x = false) →
    l.find? p = some a := by
  intro l
  induction l with
  | nil => intro h; simp at h
  | cons x xs ih =>
    intro hmem hpa hothers
    by_cases hx : p x = true
    · have hxa : x = a := by
        by_contra hne
        rw [hothers x (by simp) hne] at hx
        simp at hx
      subst hxa
      simp [List.find?, hx]
    · have hax : a ≠ x := fun he => hx (he ▸ hpa)
      have hmem' : a ∈ xs := by
        rcases List.mem_cons.mp hmem with h | h
        · exact absurd h.symm (fun he => hax he.symm)
        · exact h
      simp only [List.find?]
      rw [Bool.eq_false_iff.mpr hx]
      exact ih hmem' hpa (fun y hy => hothers y (List.mem_cons_of_mem _ hy))

section KingFold

variable (scan : Nat → Option Nat)

lemma foldl_kingStep_none :
    ∀ (l : List Nat) (acc : Option Position), (∀ r ∈ l, scan r = none) →
    l.foldl (kingStep scan) acc = acc := by
  intro l
  induction l with
  | nil => intro acc _; rfl
  | cons x xs ih =>
    intro acc h
    simp only [List.foldl]
    rw [show kingStep scan acc x = acc by simp [kingStep, h x (by simp)]]
    exact ih acc (fun r hr => h r (List.mem_cons_of_mem _ hr))

lemma foldl_kingStep_const (r₀ c₀ : Nat) :
    ∀ l : List Nat, (∀ r ∈ l, scan r = none ∨ (scan r = some c₀ ∧ r = r₀)) →
    l.foldl (kingStep scan) (some ⟨(r₀ : Int), (c₀ : Int)⟩) = some ⟨(r₀ : Int), (c₀ : Int)⟩ := by
  intro l
  induction l with
  | nil => intro _; rfl
  | cons x xs ih =>
    intro h
    simp only [List.foldl]
    have hstep : kingStep scan (some ⟨(r₀ : Int), (c₀ : Int)⟩) x = some ⟨(r₀ : Int), (c₀ : Int)⟩ := by
      rcases h x (by simp) with h' | ⟨h', rfl⟩
      · simp [kingStep, h']
      · simp [kingStep, h']
    rw [hstep]
    exact ih (fun r hr => h r (List.mem_cons_of_mem _ hr))

lemma foldl_kingStep_unique (r₀ c₀ : Nat) :
    ∀ (l : List Nat) (acc : Option Position), r₀ ∈ l → scan r₀ = some c₀ →
    (∀ r ∈ l, r ≠ r₀ → scan r = none) →
    l.foldl (kingStep scan) acc = some ⟨(r₀ : Int), (c₀ : Int)⟩ := by
  intro l
  induction l with
  | nil => intro acc h; simp at h
  | cons x xs ih =>
    intro acc hmem hscan hothers
    simp only [List.foldl]
    by_cases hx : x = r₀
    · subst hx
      rw [show kingStep scan acc x = some ⟨(x : Int), (c₀ : Int)⟩ by simp [kingStep, hscan]]
      exact foldl_kingStep_const scan x c₀ xs
        (fun r hr => by
          by_cases hr0 : r = x
          · exact Or.inr ⟨hr0 ▸ hscan, hr0⟩
          · exact Or.inl (hothers r (List.mem_cons_of_mem _ hr) hr0))
    · have hmem' : r₀ ∈ xs := by
        rcases List.mem_cons.mp hmem with h | h
        · exact absurd h.symm hx
        · exact h
      rw [show kingStep scan acc x = acc by
            simp [kingStep, hothers x (by simp) hx]]
      exact ih acc hmem' hscan (fun r hr => hothers r (List.mem_cons_of_mem _ hr))

end KingFold

lemma findKing_eq_foldl (board : Board) (color : Color) :
    findKing board color = (List.range 8).foldl (kingStep (kingRowScan board color)) none := by
  rfl

lemma kingRowScan_pred (board : Board) (color : Color) (i : Fin 8) (c : Nat) (hc : c < 8) :
    (match getCell board (i.val : Int) (c : Int) with
     | some q => decide (q.type = .k ∧ q.color = color)
     | none => false) = isKingCell board color i ⟨c, hc⟩ := by
  have hcell : getCell board (i.val : Int) (c : Int) = board i ⟨c, hc⟩ :=
    getCell_fin board i ⟨c, hc⟩
  simp only [hcell, isKingCell]

lemma kingRowScan_eq_none (board : Board) (color : Color) (i : Fin 8)
    (h : ∀ j : Fin 8, isKingCell board color i j = false) :
    kingRowScan board color i.val = none := by
  unfold kingRowScan
  rw [List.find?_eq_none]
  intro c hc
  have hc8 : c < 8 := List.mem_range.mp hc
  show ¬(match getCell board (i.val : Int) (c : Int) with
         | some q => decide (q.type = .k ∧ q.color = color)
         | none => false) = true
  rw [kingRowScan_pred board color i c hc8, h ⟨c, hc8⟩]
  simp

lemma kingRowScan_eq_some (board : Board) (color : Color) (i j₀ : Fin 8)
    (hj : isKingCell board color i j₀ = true)
    (h : ∀ j : Fin 8, j ≠ j₀ → isKingCell board color i j = false) :
    kingRowScan board color i.val = some j₀.val := by
  unfold kingRowScan
  apply find?_unique _ j₀.val
  · exact List.mem_range.mpr j₀.isLt
  · show (match getCell board (i.val : Int) ((j₀.val : Nat) : Int) with
          | some q => decide (q.type = .k ∧ q.color = color)
          | none => false) = true
    rw [kingRowScan_pred board color i j₀.val j₀.isLt, Fin.eta]
    exact hj
  · intro c hc hne
    have hc8 : c < 8 := List.mem_range.mp hc
    show (match getCell board (i.val : Int) (c : Int) with
          | some q => decide (q.type = .k ∧ q.color = color)
          | none => false) = false
    rw [kingRowScan_pred board color i c hc8]
    exact h ⟨c, hc8⟩ (fun he => hne (congrArg Fin.val he))

lemma findKing_eq_none (board : Board) (color : Color)
    (h : ∀ i j : Fin 8, isKingCell board color i j = false) :
    findKing board color = none := by
  rw [findKing_eq_foldl]
  apply foldl_kingStep_none
  intro r hr
  have hr8 : r < 8 := List.mem_range.mp hr
  exact kingRowScan_eq_none board color ⟨r, hr8⟩ (h ⟨r, hr8⟩)

lemma findKing_eq_some (board : Board) (color : Color) (i₀ j₀ : Fin 8)
    (h : ∀ i j : Fin 8, isKingCell board color i j = true ↔ (i = i₀ ∧ j = j₀)) :
    findKing board color = some ⟨(i₀.val : Int), (j₀.val : Int)⟩ := by
  rw [findKing_eq_foldl]
  apply foldl_kingStep_unique _ i₀.val j₀.val
  · exact List.mem_range.mpr i₀.isLt
  · exact kingRowScan_eq_some board color i₀ j₀ ((h i₀ j₀).mpr ⟨rfl, rfl⟩)
      (fun j hj => by
        rw [Bool.eq_false_iff]
        intro hk
        exact hj ((h i₀ j).mp hk).2)
  · intro r hr hne
    have hr8 : r < 8 := List.mem_range.mp hr
    apply kingRowScan_eq_none board color ⟨r, hr8⟩
    intro j
    rw [Bool.eq_false_iff]
    intro hk
    exact hne (congrArg Fin.val ((h ⟨r, hr8⟩ j).mp hk).1)

lemma isInCheck_missing (board : Board) (color : Color)
    (h : ∀ i j : Fin 8, isKingCell board color i j = false) :
    isInCheck board color = true := by
  unfold isInCheck
  rw [findKing_eq_none board color h]

lemma isInCheck_unique (board : Board) (color : Color) (i₀ j₀ : Fin 8)
    (h : ∀ i j : Fin 8, isKingCell board color i j = true ↔ (i = i₀ ∧ j = j₀)) :
    isInCheck board color
      = isSquareUnderAttack board ⟨(i₀.val : Int), (j₀.val : Int)⟩ (opponent color) := by
  unfold isInCheck
  rw [findKing_eq_some board color i₀ j₀ h]

/-- C8: `isInCheck` is true when the color's king is absent, and otherwise
(with a unique king) coincides with `isSquareUnderAttack` at the king's
square with the opponent as attacker. -/
theorem claim_c8_incheck_agrees (board : Board) (color : Color) :
    ((∀ i j : Fin 8, isKingCell board color i j = false) → isInCheck board color = true) ∧
    (∀ i₀ j₀ : Fin 8,
      (∀ i j : Fin 8, isKingCell board color i j = true ↔ (i = i₀ ∧ j = j₀)) →
      isInCheck board color
        = isSquareUnderAttack board ⟨(i₀.val : Int), (j₀.val : Int)⟩ (opponent color)) :=
  ⟨isInCheck_missing board color, fun i₀ j₀ h => isInCheck_unique board color i₀ j₀ h⟩

/-- C8 witness: the missing-king case on the empty board and the
unique-king case on the two-kings board. -/
theorem claim_c8_witness :
    isInCheck emptyB .white = true ∧
    isInCheck cbKings .black
      = isSquareUnderAttack cbKings ⟨((0 : Fin 8).val : Int), ((0 : Fin 8).val : Int)⟩
          (opponent .black) :=
  ⟨(claim_c8_incheck_agrees emptyB .white).1 (by decide),
   (claim_c8_incheck_agrees cbKings .black).2 0 0 (by decide)⟩

/-! ### Search lemmas: minimax never produces the `-Infinity` sentinel -/

lemma toE_ne_bot (n : Int) : toE n ≠ ⊥ := by
  unfold toE
  exact WithBot.coe_ne_bot

lemma eint_top_ne_bot : (⊤ : EInt) ≠ ⊥ := by decide

lemma maxLoop_ne_bot (f : EInt → Move → EInt) (beta : EInt)
    (hf : ∀ a m, f a m ≠ ⊥) :
    ∀ (l : List Move) (me alpha : EInt), (me ≠ ⊥ ∨ l ≠ []) →
    maxLoop f beta l me alpha ≠ ⊥ := by
  intro l
  induction l with
  | nil =>
    intro me alpha h
    rcases h with h | h
    · exact h
    · exact absurd rfl h
  | cons m rest ih =>
    intro me alpha h
    simp only [maxLoop]
    have hme' : max me (f alpha m) ≠ ⊥ := by
      intro heq
      exact hf alpha m (max_eq_bot.mp heq).2
    split
    · exact hme'
    · exact ih _ _ (Or.inl hme')

lemma minLoop_ne_bot (f : EInt → Move → EInt) (alpha : EInt)
    (hf : ∀ b m, f b m ≠ ⊥) :
    ∀ (l : List Move) (me beta : EInt), me ≠ ⊥ →
    minLoop f alpha l me beta ≠ ⊥ := by
  intro l
  induction l with
  | nil => intro me beta h; exact h
  | cons m rest ih =>
    intro me beta h
    simp only [minLoop]
    have hme' : min me (f beta m) ≠ ⊥ := by
      intro heq
      rcases min_eq_bot.mp heq with h' | h'
      · exact h h'
      · exact hf beta m h'
    split
    · exact hme'
    · exact ih _ _ hme'

lemma minimax_ne_bot :
    ∀ (d : Nat) (board : Board) (alpha beta : EInt) (isMax : Bool),
    minimax d board alpha beta isMax ≠ ⊥ := by
  intro d
  induction d with
  | zero => intro board alpha beta isMax; exact toE_ne_bot _
  | succ d ih =>
    intro board alpha beta isMax
    simp only [minimax]
    by_cases hmv : getAllMoves board (if isMax then Color.black else Color.white) = []
    · rw [if_pos hmv]
      split <;> split <;> exact toE_ne_bot _
    · rw [if_neg hmv]
      cases isMax with
      | true =>
        rw [if_pos rfl]
        exact maxLoop_ne_bot _ _ (fun a m => ih _ a beta false) _ _ _ (Or.inr hmv)
      | false =>
        rw [if_neg (by simp)]
        exact minLoop_ne_bot _ _ (fun b m => ih _ alpha b true) _ _ _ eint_top_ne_bot

/-! ### Top-level search loop lemmas -/

lemma bestLoop_isSome (f : EInt → Move → EInt) :
    ∀ (l : List Move) (best : Option Move) (mv alpha : EInt),
    best.isSome = true → (bestLoop f l best mv alpha).isSome = true := by
  intro l
  induction l with
  | nil => intro best mv alpha h; exact h
  | cons m rest ih =>
    intro best mv alpha h
    simp only [bestLoop]
    have hsome : (if mv < f alpha m then some m else best).isSome = true := by
      split
      · rfl
      · exact h
    split
    · exact hsome
    · exact ih _ _ _ hsome

lemma bestLoop_ne_none (f : EInt → Move → EInt) (l : List Move) (best : Option Move)
    (mv alpha : EInt) (h : best.isSome = true) :
    bestLoop f l best mv alpha ≠ none := by
  intro hn
  have hs := bestLoop_isSome f l best mv alpha h
  rw [hn] at hs
  exact absurd hs (by simp)

lemma bestLoop_mem (f : EInt → Move → EInt) (P : Move → Prop) :
    ∀ (l : List Move) (best : Option Move) (mv alpha : EInt),
    (∀ b, best = some b → P b) → (∀ x ∈ l, P x) →
    ∀ m, bestLoop f l best mv alpha = some m → P m := by
  intro l
  induction l with
  | nil => intro best mv alpha hb _ m hm; exact hb m hm
  | cons x rest ih =>
    intro best mv alpha hb hl m hm
    simp only [bestLoop] at hm
    have hb' : ∀ b, (if mv < f alpha x then some x else best) = some b → P b := by
      intro b
      split
      · intro h; cases h; exact hl x (by simp)
      · exact hb b
    split at hm
    · exact hb' m hm
    · exact ih _ _ _ hb' (fun y hy => hl y (List.mem_cons_of_mem _ hy)) m hm

/-- C4: with the shuffled candidate list a permutation of the generated
moves, `getBestMove` returns `none` exactly when black has no legal move,
and otherwise some generated move. -/
theorem claim_c4_bestmove_total (board : Board) (depth : Nat) (shuffled : List Move)
    (hperm : shuffled.Perm (getAllMoves board .black)) (_hd : 1 ≤ depth) :
    (getBestMove board depth shuffled = none ↔ getAllMoves board .black = []) ∧
    (∀ m, getBestMove board depth shuffled = some m → m ∈ getAllMoves board .black) := by
  unfold getBestMove
  by_cases he : getAllMoves board .black = []
  · rw [if_pos he]
    exact ⟨by simp [he], by simp⟩
  · rw [if_neg he]
    have hne : shuffled ≠ [] := by
      intro h0
      apply he
      have hlen := hperm.length_eq
      rw [h0] at hlen
      exact List.length_eq_zero.mp hlen.symm
    obtain ⟨m, rest, rfl⟩ := List.exists_cons_of_ne_nil hne
    constructor
    · constructor
      · intro hnone
        have hv : (⊥ : EInt) < minimax (depth - 1) (applyMove board m none) ⊥ ⊤ false :=
          WithBot.bot_lt_iff_ne_bot.mpr (minimax_ne_bot _ _ _ _ _)
        simp only [bestLoop, if_pos hv] at hnone
        split at hnone
        · exact absurd hnone (by simp)
        · exact absurd hnone (bestLoop_ne_none _ _ (some m) _ _ rfl)
      · intro h; exact absurd h he
    · intro m' hm'
      refine bestLoop_mem _ (fun x => x ∈ getAllMoves board .black) _ _ _ _
        (by intro b h; cases h) ?_ m' hm'
      intro x hx
      exact hperm.mem_iff.mp hx

/-- C4 witness: on the two-kings board black has moves and the search
returns one of them. -/
theorem claim_c4_witness :
    (getBestMove cbKings 1 (getAllMoves cbKings .black) = none ↔
      getAllMoves cbKings .black = []) ∧
    (∀ m, getBestMove cbKings 1 (getAllMoves cbKings .black) = some m →
      m ∈ getAllMoves cbKings .black) :=
  claim_c4_bestmove_total cbKings 1 (getAllMoves cbKings .black)
    (List.Perm.refl _) (by decide)

/-- C5: the recursion returns the evaluator's score at depth 0; at
positive depth with no legal moves for the side to move it returns -9999
(maximizing) or 9999 (minimizing) in check, and 0 otherwise. -/
theorem claim_c5_minimax_terminal :
    (∀ (board : Board) (alpha beta : EInt) (isMax : Bool),
      minimax 0 board alpha beta isMax = toE (evaluateBoard board)) ∧
    (∀ (board : Board) (d : Nat) (alpha beta : EInt) (isMax : Bool),
      getAllMoves board (if isMax then Color.black else Color.white) = [] →
      minimax (d + 1) board alpha beta isMax =
        if isInCheck board (if isMax then Color.black else Color.white) then
          (if isMax then toE (-9999) else toE 9999)
        else toE 0) := by
  constructor
  · intro board alpha beta isMax
    rfl
  · intro board d alpha beta isMax h
    simp only [minimax]
    rw [if_pos h]

/-- C5 witness: on the empty board white has no moves and no king, so the
minimizing layer returns 9999. -/
theorem claim_c5_witness :
    getAllMoves emptyB .white = [] ∧ isInCheck emptyB .white = true ∧
    minimax 1 emptyB ⊥ ⊤ false = toE 9999 := by
  refine ⟨by decide, by decide, ?_⟩
  have h := claim_c5_minimax_terminal.2 emptyB 0 ⊥ ⊤ false (by decide)
  exact h.trans (by decide)

/-- C10: the automated side is hard-wired to black.  Any move returned by
`getBestMove` originates from a black piece, and at a node with no legal
moves the maximizing layer consults black's moves and check status while
the minimizing layer consults white's. -/
theorem claim_c10_black_automated :
    (∀ (board : Board) (depth : Nat) (shuffled : List Move),
      shuffled.Perm (getAllMoves board .black) →
      ∀ m, getBestMove board depth shuffled = some m →
        ∃ p, getCell board m.frm.r m.frm.c = some p ∧ p.color = .black) ∧
    (∀ (board : Board) (d : Nat) (alpha beta : EInt),
      getAllMoves board .black = [] →
      minimax (d + 1) board alpha beta true
        = if isInCheck board .black then toE (-9999) else toE 0) ∧
    (∀ (board : Board) (d : Nat) (alpha beta : EInt),
      getAllMoves board .white = [] →
      minimax (d + 1) board alpha beta false
        = if isInCheck board .white then toE 9999 else toE 0) := by
  refine ⟨?_, ?_, ?_⟩
  · intro board depth shuffled hperm m hm
    unfold getBestMove at hm
    by_cases he : getAllMoves board .black = []
    · rw [if_pos he] at hm
      exact absurd hm (by simp)
    · rw [if_neg he] at hm
      have hmem : m ∈ getAllMoves board .black := by
        refine bestLoop_mem _ (fun x => x ∈ getAllMoves board .black) _ _ _ _
          (by intro b h; cases h) ?_ m hm
        intro x hx
        exact hperm.mem_iff.mp hx
      exact (of_mem_getAllMoves hmem).2
  · intro board d alpha beta h
    simp [minimax, h]
  · intro board d alpha beta h
    simp [minimax, h]

/-- C10 witness: the concrete best move on the two-kings board starts on
black's king square. -/
theorem claim_c10_witness :
    ∃ p, getCell cbKings (0 : Int) (0 : Int) = some p ∧ p.color = .black :=
  claim_c10_black_automated.1 cbKings 1 (getAllMoves cbKings .black)
    (List.Perm.refl _) ⟨⟨0, 0⟩, ⟨0, 1⟩⟩ (by decide)

/-! ### C1: totality of validation over arbitrary coordinates -/

/-- C1 counterexample: an out-of-range row makes `isValidMove` throw (the
first board read indexes `undefined`), and a clear-path rook move to the
off-board square (7, 8) is accepted as `true`, not rejected. -/
theorem claim_c1_counterexample :
    isValidMoveE cbRook ⟨8, 0⟩ ⟨0, 0⟩ .white true = .error () ∧
    isValidMoveE cbRook ⟨7, 0⟩ ⟨7, 8⟩ .white true = .ok true := by
  constructor <;> decide

/-- C1 amended: with both row coordinates in range the validator returns a
boolean and never raises, and an empty origin, wrong-color origin piece or
same-color destination piece yields `false`. -/
theorem claim_c1_amended (board : Board) (frm dst : Position) (turn : Color) (cs : Bool)
    (hfr : 0 ≤ frm.r ∧ frm.r < 8) (htr : 0 ≤ dst.r ∧ dst.r < 8) :
    isValidMoveE board frm dst turn cs = .ok (isValidMove board frm dst turn cs) ∧
    ((getCell board frm.r frm.c = none ∨
      (∃ p, getCell board frm.r frm.c = some p ∧ p.color ≠ turn) ∨
      (∃ p t, getCell board frm.r frm.c = some p ∧ getCell board dst.r dst.c = some t ∧
        t.color = p.color)) →
      isValidMove board frm dst turn cs = false) := by
  constructor
  · unfold isValidMoveE
    rw [if_pos ⟨hfr, htr⟩]
  · intro h
    unfold isValidMove
    rcases h with h | ⟨p, hp, hc⟩ | ⟨p, t, hp, ht, hct⟩
    · rw [h]
    · simp [hp, hc]
    · by_cases hpc : p.color ≠ turn
      · simp [hp, hpc]
      · have hany : ((getCell board dst.r dst.c).any fun t' => t'.color = p.color) = true := by
          simp [ht, Option.any, hct]
        simp [hp, hpc, hany]

/-- C1 witness: in-range coordinates with an empty origin give `ok false`. -/
theorem claim_c1_witness :
    isValidMoveE emptyB ⟨0, 0⟩ ⟨1, 1⟩ .white true
      = .ok (isValidMove emptyB ⟨0, 0⟩ ⟨1, 1⟩ .white true) ∧
    isValidMove emptyB ⟨0, 0⟩ ⟨1, 1⟩ .white true = false := by
  have h := claim_c1_amended emptyB ⟨0, 0⟩ ⟨1, 1⟩ .white true (by decide) (by decide)
  exact ⟨h.1, h.2 (Or.inl (by decide))⟩

/-! ### C2: default promotion and its SAN -/

/-- C2: evaluating the code at the failing input: `applyMove` with no
explicit promotion type does place a queen, but `getSan` for the same
call pattern renders plain `a8` with no `=Q` suffix. -/
theorem claim_c2_eval :
    getCell (applyMove cbPromo promoMv none) 0 0 = some ⟨.q, .white, true⟩ ∧
    getSan cbPromo (applyMove cbPromo promoMv none) promoMv none = "a8" ∧
    getSan cbPromo (applyMove cbPromo promoMv none) promoMv (some .q) = "a8=Q" := by
  refine ⟨by decide, by decide, by decide⟩

/-! ### C7: castling application and its SAN -/

lemma getCell_setCell_ne (b : Board) (r' c' r c : Int) (v : Option Piece)
    (hr : 0 ≤ r) (hr8 : r < 8) (hc : 0 ≤ c) (hc8 : c < 8) (hne : ¬(r = r' ∧ c = c')) :
    getCell (setCell b r' c' v) r c = getCell b r c := by
  rw [getCell_setCell b r' c' r c v hr hr8 hc hc8, if_neg hne]

lemma getCell_setCell_eq (b : Board) (r c : Int) (v : Option Piece)
    (hr : 0 ≤ r) (hr8 : r < 8) (hc : 0 ≤ c) (hc8 : c < 8) :
    getCell (setCell b r c v) r c = v := by
  rw [getCell_setCell b r c r c v hr hr8 hc hc8, if_pos ⟨rfl, rfl⟩]

/-- C7: a kingside castling king move from e-file applied with
`applyMove` puts the king on column 6 and the rook from column 7 on
column 5 in one call, marking both moved and clearing both origin
squares; `getSan` renders `O-O`, and `O-O-O` for the queenside move whose
destination column is smaller. -/
theorem claim_c7_castle_apply_san (board : Board) (r : Int) (p rk : Piece)
    (hr : 0 ≤ r ∧ r < 8)
    (hp : getCell board r 4 = some p) (hpt : p.type = .k)
    (hrk : getCell board r 7 = some rk) :
    (getCell (applyMove board ⟨⟨r, 4⟩, ⟨r, 6⟩⟩ none) r 6 = some { p with hasMoved := true } ∧
     getCell (applyMove board ⟨⟨r, 4⟩, ⟨r, 6⟩⟩ none) r 5 = some { rk with hasMoved := true } ∧
     getCell (applyMove board ⟨⟨r, 4⟩, ⟨r, 6⟩⟩ none) r 7 = none ∧
     getCell (applyMove board ⟨⟨r, 4⟩, ⟨r, 6⟩⟩ none) r 4 = none) ∧
    (isInCheck (applyMove board ⟨⟨r, 4⟩, ⟨r, 6⟩⟩ none) (opponent p.color) = false →
      getSan board (applyMove board ⟨⟨r, 4⟩, ⟨r, 6⟩⟩ none) ⟨⟨r, 4⟩, ⟨r, 6⟩⟩ none = "O-O") ∧
    (isInCheck (applyMove board ⟨⟨r, 4⟩, ⟨r, 2⟩⟩ none) (opponent p.color) = false →
      getSan board (applyMove board ⟨⟨r, 4⟩, ⟨r, 2⟩⟩ none) ⟨⟨r, 4⟩, ⟨r, 2⟩⟩ none = "O-O-O") := by
  have happ : applyMove board ⟨⟨r, 4⟩, ⟨r, 6⟩⟩ none =
      setCell (setCell
        (setCell (setCell board r 5 (some { rk with hasMoved := true })) r 7 none)
        r 6 (some { p with hasMoved := true })) r 4 none := by
    simp only [applyMove, hp]
    rw [if_pos (show ({ p with hasMoved := true } : Piece).type = .k ∧
        ((6 : Int) - 4).natAbs = 2 from ⟨hpt, by decide⟩)]
    norm_num
    simp only [hrk]
    rw [if_neg (show ¬(p.type = .p ∧ (r = 0 ∨ r = 7)) from fun hcon => by
      have h1 := hcon.1
      rw [hpt] at h1
      cases h1)]
  refine ⟨?_, ?_, ?_⟩
  · rw [happ]
    obtain ⟨hr0, hr8⟩ := hr
    refine ⟨?_, ?_, ?_, ?_⟩
    · rw [getCell_setCell_ne _ _ _ _ _ _ hr0 hr8 (by omega) (by omega) (by omega),
         getCell_setCell_eq _ _ _ _ hr0 hr8 (by omega) (by omega)]
    · rw [getCell_setCell_ne _ _ _ _ _ _ hr0 hr8 (by omega) (by omega) (by omega),
         getCell_setCell_ne _ _ _ _ _ _ hr0 hr8 (by omega) (by omega) (by omega),
         getCell_setCell_ne _ _ _ _ _ _ hr0 hr8 (by omega) (by omega) (by omega),
         getCell_setCell_eq _ _ _ _ hr0 hr8 (by omega) (by omega)]
    · rw [getCell_setCell_ne _ _ _ _ _ _ hr0 hr8 (by omega) (by omega) (by omega),
         getCell_setCell_ne _ _ _ _ _ _ hr0 hr8 (by omega) (by omega) (by omega),
         getCell_setCell_eq _ _ _ _ hr0 hr8 (by omega) (by omega)]
    · rw [getCell_setCell_eq _ _ _ _ hr0 hr8 (by omega) (by omega)]
  · intro hchk
    simp only [getSan, hp]
    rw [if_pos (by exact ⟨hpt, by decide⟩)]
    rw [if_pos (by decide : (4 : Int) < 6)]
    rw [hchk]
    simp
  · intro hchk
    simp only [getSan, hp]
    rw [if_pos (by exact ⟨hpt, by decide⟩)]
    rw [if_neg (by decide : ¬((4 : Int) < 2))]
    rw [hchk]
    simp

/-- C7 witness: the concrete castling position. -/
theorem claim_c7_witness :
    (getCell (applyMove cbCastle ⟨⟨7, 4⟩, ⟨7, 6⟩⟩ none) 7 6
        = some { (⟨.k, .white, false⟩ : Piece) with hasMoved := true } ∧
     getCell (applyMove cbCastle ⟨⟨7, 4⟩, ⟨7, 6⟩⟩ none) 7 5
        = some { (⟨.r, .white, false⟩ : Piece) with hasMoved := true } ∧
     getCell (applyMove cbCastle ⟨⟨7, 4⟩, ⟨7, 6⟩⟩ none) 7 7 = none ∧
     getCell (applyMove cbCastle ⟨⟨7, 4⟩, ⟨7, 6⟩⟩ none) 7 4 = none) ∧
    getSan cbCastle (applyMove cbCastle ⟨⟨7, 4⟩, ⟨7, 6⟩⟩ none) ⟨⟨7, 4⟩, ⟨7, 6⟩⟩ none = "O-O" ∧
    getSan cbCastle (applyMove cbCastle ⟨⟨7, 4⟩, ⟨7, 2⟩⟩ none) ⟨⟨7, 4⟩, ⟨7, 2⟩⟩ none = "O-O-O" := by
  have h := claim_c7_castle_apply_san cbCastle 7 ⟨.k, .white, false⟩ ⟨.r, .white, false⟩
    (by decide) (by decide) (by decide) (by decide)
  exact ⟨h.1, h.2.1 (by decide), h.2.2 (by decide)⟩

/-! ### C6: necessary conditions for an accepted castling move -/

lemma isValidMove_true_elim (board : Board) (frm dst : Position) (turn : Color) (p : Piece)
    (hp : getCell board frm.r frm.c = some p)
    (hv : isValidMove board frm dst turn true = true) :
    p.color = turn ∧ pieceValid board frm dst turn true p = true ∧
    isInCheck (applyMove board ⟨frm, dst⟩ none) turn = false := by
  unfold isValidMove at hv
  simp only [hp] at hv
  by_cases h1 : p.color ≠ turn
  · rw [if_pos h1] at hv
    exact absurd hv (by simp)
  · rw [if_neg h1] at hv
    by_cases h2 : ((getCell board dst.r dst.c).any fun t => t.color = p.color) = true
    · rw [if_pos h2] at hv
      exact absurd hv (by simp)
    · rw [if_neg h2] at hv
      refine ⟨not_not.mp h1, ?_, ?_⟩
      · cases hpv : pieceValid board frm dst turn true p
        · rw [hpv] at hv
          simp at hv
        · rfl
      · cases hpv : pieceValid board frm dst turn true p
        · rw [hpv] at hv
          simp at hv
        · rw [hpv] at hv
          simpa using hv

lemma kingValid_castle_elim (board : Board) (frm dst : Position) (turn : Color) (p : Piece)
    (hrow : dst.r = frm.r) (hdx : (dst.c - frm.c).natAbs = 2)
    (hv : kingValid board frm dst turn true p = true) :
    p.hasMoved = false ∧ isInCheck board turn = false ∧
    (∃ rook, getCell board frm.r (if frm.c < dst.c then 7 else 0) = some rook ∧
      rook.type = .r ∧ rook.color = turn ∧ rook.hasMoved = false) ∧
    isPathClear board frm ⟨frm.r, if frm.c < dst.c then 7 else 0⟩ = true ∧
    isSquareUnderAttack board ⟨frm.r, frm.c + (if frm.c < dst.c then 1 else -1)⟩
      (opponent turn) = false := by
  simp only [kingValid] at hv
  rw [if_neg (show ¬((dst.c - frm.c).natAbs ≤ 1 ∧ (dst.r - frm.r).natAbs ≤ 1) by
    rw [hdx]; omega)] at hv
  have hdy : (dst.r - frm.r).natAbs = 0 := by rw [hrow]; simp
  by_cases hm : p.hasMoved = false
  · rw [if_pos ⟨hdy, hdx, hm⟩] at hv
    by_cases hic : isInCheck board turn = true
    · rw [if_pos (by simp [hic])] at hv
      exact absurd hv (by simp)
    · have hic' : isInCheck board turn = false := by simpa using hic
      rw [if_neg (by simp [hic'])] at hv
      cases hrk : getCell board frm.r (if frm.c < dst.c then 7 else 0) with
      | none =>
        simp only [hrk] at hv
        exact absurd hv (by simp)
      | some rook =>
        simp only [hrk] at hv
        by_cases hrc : rook.type = .r ∧ rook.color = turn ∧ rook.hasMoved = false
        · rw [if_pos hrc] at hv
          by_cases hpath : isPathClear board frm ⟨frm.r, if frm.c < dst.c then 7 else 0⟩ = true
          · rw [if_pos hpath] at hv
            by_cases hmid : isSquareUnderAttack board
                ⟨frm.r, frm.c + (if frm.c < dst.c then 1 else -1)⟩ (opponent turn) = true
            · rw [if_pos (by simp [hmid])] at hv
              exact absurd hv (by simp)
            · exact ⟨hm, hic', ⟨rook, rfl, hrc.1, hrc.2.1, hrc.2.2⟩, hpath, by simpa using hmid⟩
          · rw [if_neg hpath] at hv
            exact absurd hv (by simp)
        · rw [if_neg hrc] at hv
          exact absurd hv (by simp)
  · rw [if_neg (fun hcon => hm hcon.2.2)] at hv
    exact absurd hv (by simp)

lemma pathClearAux_none (board : Board) (dc : Int) :
    ∀ (k : Nat) (r c : Int), pathClearAux board 0 dc k r c = true →
    ∀ i : Nat, i < k → getCell board r (c + (i : Int) * dc) = none := by
  intro k
  induction k with
  | zero => intro r c _ i hi; exact absurd hi (by omega)
  | succ k ih =>
    intro r c h i hi
    simp only [pathClearAux] at h
    by_cases hc : (getCell board r c).isSome = true
    · rw [if_pos hc] at h
      exact absurd h (by simp)
    · rw [if_neg hc] at h
      have hcn : getCell board r c = none := by
        cases hcell : getCell board r c
        · rfl
        · rw [hcell] at hc
          simp at hc
      cases i with
      | zero => simpa using hcn
      | succ i' =>
        have hrec := ih (r + 0) (c + dc) h i' (by omega)
        have harith : c + ((i' + 1 : Nat) : Int) * dc = (c + dc) + (i' : Int) * dc := by
          push_cast
          ring
        rw [harith]
        simpa using hrec

lemma castle_path_empty (board : Board) (row a b : Int)
    (h : isPathClear board ⟨row, a⟩ ⟨row, b⟩ = true) :
    ∀ c : Int, min a b < c → c < max a b → getCell board row c = none := by
  intro c hc1 hc2
  simp only [isPathClear] at h
  rw [sub_self] at h
  simp only [Int.sign_zero, Int.natAbs_zero, add_zero] at h
  rcases lt_trichotomy a b with hab | hab | hab
  · rw [Int.sign_eq_one_iff_pos.mpr (by omega)] at h
    have hcell := pathClearAux_none board 1 _ row (a + 1) h (c - a - 1).toNat (by omega)
    have he : (a + 1) + ((c - a - 1).toNat : Int) * 1 = c := by
      rw [mul_one]
      omega
    rwa [he] at hcell
  · exact absurd hc2 (by omega)
  · rw [Int.sign_eq_neg_one_iff_neg.mpr (by omega)] at h
    have hcell := pathClearAux_none board (-1) _ row (a + -1) h (a - 1 - c).toNat (by omega)
    have he : (a + -1) + ((a - 1 - c).toNat : Int) * (-1) = c := by
      rw [mul_neg_one]
      omega
    rwa [he] at hcell

lemma applyMove_castle (board : Board) (frm dst : Position) (p rook : Piece)
    (hp : getCell board frm.r frm.c = some p) (hk : p.type = .k)
    (hdx : (dst.c - frm.c).natAbs = 2)
    (hrk : getCell board frm.r (if frm.c < dst.c then 7 else 0) = some rook) :
    applyMove board ⟨frm, dst⟩ none =
      setCell (setCell
        (setCell (setCell board frm.r (if frm.c < dst.c then 5 else 3)
            (some { rook with hasMoved := true }))
          frm.r (if frm.c < dst.c then 7 else 0) none)
        dst.r dst.c (some { p with hasMoved := true }))
        frm.r frm.c none := by
  simp only [applyMove, hp]
  rw [if_pos (show ({ p with hasMoved := true } : Piece).type = .k ∧
      (dst.c - frm.c).natAbs = 2 from ⟨hk, hdx⟩)]
  simp only [hrk]
  rw [if_neg (show ¬(p.type = .p ∧ (dst.r = 0 ∨ dst.r = 7)) from fun hcon => by
    have h1 := hcon.1
    rw [hk] at h1
    cases h1)]

lemma castle_post_unique (board : Board) (fr fc tc rookCol rookTo : Int)
    (p rook : Piece) (turn : Color) (i₀ j₀ iD jD : Fin 8)
    (hne : fc ≠ tc)
    (hk : p.type = .k) (hcol : p.color = turn) (hrt : rook.type = .r)
    (huniq : ∀ i j : Fin 8, isKingCell board turn i j = true ↔ (i = i₀ ∧ j = j₀))
    (hking : (i₀.val : Int) = fr ∧ (j₀.val : Int) = fc)
    (hD : (iD.val : Int) = fr ∧ (jD.val : Int) = tc) :
    ∀ i j : Fin 8,
      isKingCell
        (setCell (setCell
          (setCell (setCell board fr rookTo (some { rook with hasMoved := true }))
            fr rookCol none)
          fr tc (some { p with hasMoved := true }))
          fr fc none) turn i j = true
        ↔ (i = iD ∧ j = jD) := by
  intro i j
  simp only [isKingCell, setCell]
  by_cases c1 : (i.val : Int) = fr ∧ (j.val : Int) = fc
  · rw [if_pos c1]
    simp only [show ((match (none : Option Piece) with
      | some q => decide (q.type = .k ∧ q.color = turn)
      | none => false) : Bool) = false from rfl]
    constructor
    · intro h; cases h
    · rintro ⟨hi, hj⟩
      exact (hne (by rw [← c1.2, hj]; exact hD.2)).elim
  · rw [if_neg c1]
    by_cases c2 : (i.val : Int) = fr ∧ (j.val : Int) = tc
    · rw [if_pos c2]
      have hval : (match (some { p with hasMoved := true } : Option Piece) with
          | some q => decide (q.type = .k ∧ q.color = turn)
          | none => false) = true := by
        simp [hk, hcol]
      rw [hval]
      constructor
      · intro _
        refine ⟨Fin.ext ?_, Fin.ext ?_⟩
        · omega
        · omega
      · intro _
        rfl
    · rw [if_neg c2]
      by_cases c3 : (i.val : Int) = fr ∧ (j.val : Int) = rookCol
      · rw [if_pos c3]
        simp only [show ((match (none : Option Piece) with
          | some q => decide (q.type = .k ∧ q.color = turn)
          | none => false) : Bool) = false from rfl]
        constructor
        · intro h; cases h
        · rintro ⟨hi, hj⟩
          exact (c2 ⟨by rw [hi, hD.1], by rw [hj, hD.2]⟩).elim
      · rw [if_neg c3]
        by_cases c4 : (i.val : Int) = fr ∧ (j.val : Int) = rookTo
        · rw [if_pos c4]
          have hval : (match (some { rook with hasMoved := true } : Option Piece) with
              | some q => decide (q.type = .k ∧ q.color = turn)
              | none => false) = false := by
            simp [hrt]
          rw [hval]
          constructor
          · intro h; cases h
          · rintro ⟨hi, hj⟩
            exact (c2 ⟨by rw [hi, hD.1], by rw [hj, hD.2]⟩).elim
        · rw [if_neg c4]
          show isKingCell board turn i j = true ↔ _
          rw [huniq i j]
          constructor
          · rintro ⟨hi, hj⟩
            exact absurd ⟨by rw [hi]; exact hking.1, by rw [hj]; exact hking.2⟩ c1
          · rintro ⟨hi, hj⟩
            exact absurd ⟨by rw [hi]; exact hD.1, by rw [hj]; exact hD.2⟩ c2

/-- C6: a two-square king move accepted with `checkSafety = true` (for
the sole king of the moving side) implies every castling condition: the
king unmoved, the matching rook present, unmoved and of the right color,
the squares strictly between king and rook empty, and none of the king's
current square, its transit square, or its destination square (on the
post-move board) attacked by the opponent. -/
theorem claim_c6_castle_conditions (board : Board) (frm dst : Position) (turn : Color)
    (p : Piece) (i₀ j₀ : Fin 8)
    (hfr : 0 ≤ frm.r ∧ frm.r < 8) (_hfc : 0 ≤ frm.c ∧ frm.c < 8)
    (htc : 0 ≤ dst.c ∧ dst.c < 8)
    (hrow : dst.r = frm.r) (hdx : (dst.c - frm.c).natAbs = 2)
    (hp : getCell board frm.r frm.c = some p) (hk : p.type = .k)
    (huniq : ∀ i j : Fin 8, isKingCell board turn i j = true ↔ (i = i₀ ∧ j = j₀))
    (hking : (i₀.val : Int) = frm.r ∧ (j₀.val : Int) = frm.c)
    (hvalid : isValidMove board frm dst turn true = true) :
    p.color = turn ∧ p.hasMoved = false ∧
    (∃ rook, getCell board frm.r (if frm.c < dst.c then 7 else 0) = some rook ∧
      rook.type = .r ∧ rook.color = turn ∧ rook.hasMoved = false) ∧
    (∀ c : Int, min frm.c (if frm.c < dst.c then 7 else 0) < c →
      c < max frm.c (if frm.c < dst.c then 7 else 0) → getCell board frm.r c = none) ∧
    isSquareUnderAttack board frm (opponent turn) = false ∧
    isSquareUnderAttack board ⟨frm.r, frm.c + (if frm.c < dst.c then 1 else -1)⟩
      (opponent turn) = false ∧
    isSquareUnderAttack (applyMove board ⟨frm, dst⟩ none) dst (opponent turn) = false := by
  obtain ⟨hcol, hpv, hgate⟩ := isValidMove_true_elim board frm dst turn p hp hvalid
  have hkv : kingValid board frm dst turn true p = true := by
    simp only [pieceValid, hk] at hpv
    exact hpv
  obtain ⟨hmv, hic, ⟨rook, hrk, hrt, hrc, hrm⟩, hpath, hmid⟩ :=
    kingValid_castle_elim board frm dst turn p hrow hdx hkv
  refine ⟨hcol, hmv, ⟨rook, hrk, hrt, hrc, hrm⟩, ?_, ?_, hmid, ?_⟩
  · intro c h1 h2
    exact castle_path_empty board frm.r frm.c _ hpath c h1 h2
  · have hiu := isInCheck_unique board turn i₀ j₀ huniq
    rw [hiu] at hic
    have hpos : (⟨(i₀.val : Int), (j₀.val : Int)⟩ : Position) = frm := by
      rw [hking.1, hking.2]
    rwa [hpos] at hic
  · have happ := applyMove_castle board frm dst p rook hp hk hdx hrk
    rw [hrow] at happ
    have hD1 : ((frm.r.toNat : Nat) : Int) = frm.r := Int.toNat_of_nonneg hfr.1
    have hD2 : ((dst.c.toNat : Nat) : Int) = dst.c := Int.toNat_of_nonneg htc.1
    have hpu := castle_post_unique board frm.r frm.c dst.c
      (if frm.c < dst.c then 7 else 0) (if frm.c < dst.c then 5 else 3)
      p rook turn i₀ j₀ ⟨frm.r.toNat, by omega⟩ ⟨dst.c.toNat, by omega⟩
      (by omega) hk hcol hrt huniq hking ⟨hD1, hD2⟩
    have hgate' := hgate
    rw [happ] at hgate'
    have hiu2 := isInCheck_unique _ turn ⟨frm.r.toNat, by omega⟩ ⟨dst.c.toNat, by omega⟩ hpu
    rw [hiu2] at hgate'
    have hpos2 : (⟨((⟨frm.r.toNat, by omega⟩ : Fin 8).val : Int),
        ((⟨dst.c.toNat, by omega⟩ : Fin 8).val : Int)⟩ : Position) = dst := by
      show (⟨(frm.r.toNat : Int), (dst.c.toNat : Int)⟩ : Position) = dst
      rw [hD1, hD2, ← hrow]
    rw [hpos2] at hgate'
    rwa [happ]

/-- C6 witness: white kingside castling from the untouched position. -/
theorem claim_c6_witness :
    (⟨.k, .white, false⟩ : Piece).color = .white ∧
    (⟨.k, .white, false⟩ : Piece).hasMoved = false ∧
    (∃ rook, getCell cbCastle 7 7 = some rook ∧ rook.type = .r ∧ rook.color = .white ∧
      rook.hasMoved = false) ∧
    (∀ c : Int, min (4 : Int) 7 < c → c < max (4 : Int) 7 → getCell cbCastle 7 c = none) ∧
    isSquareUnderAttack cbCastle ⟨7, 4⟩ (opponent .white) = false ∧
    isSquareUnderAttack cbCastle ⟨7, 5⟩ (opponent .white) = false ∧
    isSquareUnderAttack (applyMove cbCastle ⟨⟨7, 4⟩, ⟨7, 6⟩⟩ none) ⟨7, 6⟩
      (opponent .white) = false :=
  claim_c6_castle_conditions cbCastle ⟨7, 4⟩ ⟨7, 6⟩ .white ⟨.k, .white, false⟩ 7 4
    (by decide) (by decide) (by decide) rfl (by decide) (by decide) rfl
    (by decide) ⟨rfl, rfl⟩ (by decide)

/-! ### C9: referential purity of `applyMove` in the heap model -/

lemma derefB_append (σ : Store) (L : List JsPiece) (b : BoardR) (hwf : StoreWF σ b) :
    derefB (σ ++ L) b = derefB σ b := by
  funext i j
  simp only [derefB]
  cases hb : b i j with
  | none => rfl
  | some n => simp [List.getElem?_append_left (hwf i j n hb)]

lemma applyMoveH_frame (σ : Store) (b : BoardR) (mv : Move) (pt : Option PieceType)
    (hwf : StoreWF σ b) (σ' : Store) (b' : BoardR)
    (h : applyMoveH σ b mv pt = .ok (σ', b')) :
    derefB σ' b = derefB σ b := by
  simp only [applyMoveH] at h
  repeat' split at h
  all_goals cases h
  all_goals exact derefB_append σ _ b hwf

lemma vGet_derefB (σ : Store) (b : BoardR) (r c : Int) :
    vGet (derefB σ b) r c = (refAt b r c).bind fun n => List.get? σ n := by
  unfold vGet refAt derefB
  split
  · rfl
  · rfl

lemma derefB_setRef (σ : Store) (b : BoardR) (r c : Int) (v : Option Nat) :
    derefB σ (setRef b r c v)
      = vSet (derefB σ b) r c (v.bind fun n => List.get? σ n) := by
  funext i j
  simp only [derefB, setRef, vSet]
  by_cases h : (i.val : Int) = r ∧ (j.val : Int) = c
  · rw [if_pos h, if_pos h]
  · rw [if_neg h, if_neg h]

lemma get?_append_first (σ : Store) (x : JsPiece) (L : List JsPiece) :
    List.get? (σ ++ x :: L) σ.length = some x := by
  induction σ with
  | nil => rfl
  | cons y ys ih => simpa using ih

lemma get?_append_second (σ : Store) (x y : JsPiece) :
    List.get? (σ ++ [x, y]) (σ.length + 1) = some y := by
  induction σ with
  | nil => rfl
  | cons z zs ih => simpa using ih

lemma applyMoveH_refines (σ : Store) (b : BoardR) (mv : Move) (pt : Option PieceType)
    (hwf : StoreWF σ b) :
    Except.map (fun x => derefB x.1 x.2) (applyMoveH σ b mv pt)
      = applyMoveJs (derefB σ b) mv pt := by
  simp only [applyMoveH, applyMoveJs]
  rw [vGet_derefB σ b mv.frm.r mv.frm.c]
  by_cases h1 : ¬(0 ≤ mv.frm.r ∧ mv.frm.r < 8)
  · rw [if_pos h1, if_pos h1]
    rfl
  · rw [if_neg h1, if_neg h1]
    by_cases hca : (((refAt b mv.frm.r mv.frm.c).bind fun n =>
        List.get? σ n).getD emptyJs).jtype = some PieceType.k ∧
        (mv.dst.c - mv.frm.c).natAbs = 2
    · rw [if_pos hca, if_pos hca]
      rw [vGet_derefB σ b mv.frm.r (if mv.frm.c < mv.dst.c then 7 else 0)]
      by_cases h2 : ¬(0 ≤ mv.dst.r ∧ mv.dst.r < 8)
      · rw [if_pos h2, if_pos h2]
        rfl
      · rw [if_neg h2, if_neg h2]
        simp only [Except.map]
        congr 1
        rw [derefB_setRef, derefB_setRef, derefB_setRef, derefB_setRef]
        rw [derefB_append σ _ b hwf]
        simp only [Option.bind]
        rw [get?_append_first, get?_append_second]
    · rw [if_neg hca, if_neg hca]
      by_cases h2 : ¬(0 ≤ mv.dst.r ∧ mv.dst.r < 8)
      · rw [if_pos h2, if_pos h2]
        rfl
      · rw [if_neg h2, if_neg h2]
        simp only [Except.map]
        congr 1
        rw [derefB_setRef, derefB_setRef]
        rw [derefB_append σ _ b hwf]
        simp only [Option.bind]
        rw [get?_append_first]

/-- C9: `applyMove` is referentially pure in the heap model: the call
leaves every piece reachable from the input board denoting the same
value, and on two stores holding structurally equal boards it produces
structurally equal result boards (or fails identically). -/
theorem claim_c9_applymove_pure (σ₁ σ₂ : Store) (b₁ b₂ : BoardR) (mv : Move)
    (pt : Option PieceType) (h₁ : StoreWF σ₁ b₁) (h₂ : StoreWF σ₂ b₂)
    (heq : derefB σ₁ b₁ = derefB σ₂ b₂) :
    (∀ σ' b', applyMoveH σ₁ b₁ mv pt = .ok (σ', b') → derefB σ' b₁ = derefB σ₁ b₁) ∧
    Except.map (fun x => derefB x.1 x.2) (applyMoveH σ₁ b₁ mv pt)
      = Except.map (fun x => derefB x.1 x.2) (applyMoveH σ₂ b₂ mv pt) := by
  refine ⟨fun σ' b' h => applyMoveH_frame σ₁ b₁ mv pt h₁ σ' b' h, ?_⟩
  rw [applyMoveH_refines σ₁ b₁ mv pt h₁, applyMoveH_refines σ₂ b₂ mv pt h₂, heq]

/-- C9 witness: a pawn push on two independent heap representations of
the same board. -/
theorem claim_c9_witness :
    (∀ σ' b', applyMoveH storeW boardRW ⟨⟨6, 4⟩, ⟨4, 4⟩⟩ none = .ok (σ', b') →
      derefB σ' boardRW = derefB storeW boardRW) ∧
    Except.map (fun x => derefB x.1 x.2) (applyMoveH storeW boardRW ⟨⟨6, 4⟩, ⟨4, 4⟩⟩ none)
      = Except.map (fun x => derefB x.1 x.2)
          (applyMoveH storeW2 boardRW2 ⟨⟨6, 4⟩, ⟨4, 4⟩⟩ none) :=
  claim_c9_applymove_pure storeW storeW2 boardRW boardRW2 ⟨⟨6, 4⟩, ⟨4, 4⟩⟩ none
    (by
      intro i j n h
      simp only [boardRW] at h
      split at h
      · cases h
        decide
      · cases h)
    (by
      intro i j n h
      simp only [boardRW2] at h
      split at h
      · cases h
        decide
      · cases h)
    (by decide)
